import Mathlib

/-!
Verification of the evaluation-budget-governed search loop, the sampling
strategies and the timing instrumentation of the COCO benchmark driver
(`coco_experiment_rayes.cpp`), via a shallow embedding.

Machine doubles are embedded as rationals (`ℚ`); `floor(pow(b, 1/d))` is
embedded as the exact integer root `natRoot`.  Side-effecting evaluation
calls are embedded as traces of `Ev` events, each recording the evaluation
kind, the evaluated point and the problem's cumulative evaluation counter
at the moment the evaluation is initiated.
-/

/-- Exact embedding of `floor(pow((double) b, 1.0 / (double) d))`:
the greatest `n` with `n ^ d ≤ b`. -/
def natRoot (b d : ℕ) : ℕ := Nat.findGreatest (fun n => n ^ d ≤ b) b

/-- One move of the grid odometer of `my_grid_search` (lines 401-420):
if `nodes[0] < max_nodes` increment it, otherwise carry into the first
higher dimension whose index is below `max_nodes`, zeroing all lower
indices; `none` embeds the `break` taken when the carry runs off the end. -/
def odoStep (m : ℕ) : List ℕ → Option (List ℕ)
  | [] => none
  | d :: ds =>
    if d < m then some ((d + 1) :: ds)
    else
      match odoStep m ds with
      | some ds2 => some (0 :: ds2)
      | none => none

/-- The point evaluated at odometer position `nodes`:
`x[j] = lower_bounds[j] + grid_step[j] * nodes[j]` (line 393). -/
def gridPoint (lower step : List ℚ) (nodes : List ℕ) : List ℚ :=
  List.zipWith (fun ls (n : ℕ) => ls.1 + ls.2 * (n : ℚ)) (lower.zip step) nodes

/-- The `while (evaluations < max_budget)` loop of `my_grid_search`
(lines 389-421), with the remaining budget as fuel: each iteration
performs exactly one evaluation, then either advances the odometer or
exits at the end of the grid. -/
def gridLoop (m : ℕ) (lower step : List ℚ) : ℕ → List ℕ → List (List ℚ)
  | 0, _ => []
  | fuel + 1, nodes =>
    gridPoint lower step nodes ::
      (match odoStep m nodes with
       | some ns => gridLoop m lower step fuel ns
       | none => [])

/-- Embedding of `my_grid_search` (lines 365-427): computes
`max_nodes = max(1, floor(budget^(1/dimension)) - 1)` and
`grid_step[j] = (upper[j] - lower[j]) / max_nodes`, then enumerates the
grid, returning the list of evaluated points in order. -/
def my_grid_search (dimension : ℕ) (lower_bounds upper_bounds : List ℚ)
    (max_budget : ℕ) : List (List ℚ) :=
  let max_nodes := max 1 (natRoot max_budget dimension - 1)
  let grid_step := List.zipWith
    (fun u l => (u - l) / (max_nodes : ℚ)) upper_bounds lower_bounds
  gridLoop max_nodes lower_bounds grid_step max_budget
    (List.replicate dimension 0)

/-- Mixed-radix rank of an odometer state (digits little-endian, base `m+1`). -/
def odoRank (m : ℕ) : List ℕ → ℕ
  | [] => 0
  | d :: ds => d + (m + 1) * odoRank m ds

/-- Kind of an evaluation call routed through the evaluation gateway:
`evaluate_function` or `evaluate_constraint`. -/
inductive EvKind
  | func
  | cons
  deriving DecidableEq, Repr

/-- One evaluation event: which evaluator was called, at which point, and
the problem's cumulative objective+constraint evaluation counter at the
moment the call is initiated (each call then increments that counter). -/
structure Ev where
  kind : EvKind
  point : List ℚ
  countAtInit : ℕ
  deriving DecidableEq, Repr

/-- The random point of one `my_random_search` iteration (lines 334-337):
`x[j] = lower[j] + coco_random_uniform() * (upper[j] - lower[j])`; the
uniform draws form the stream `g`, consumed in order. -/
def samplePoint (dimension : ℕ) (lower upper : List ℚ) (g : ℕ → ℚ)
    (base : ℕ) : List ℚ :=
  (List.range dimension).map
    (fun j => lower.getD j 0 + g (base + j) * (upper.getD j 0 - lower.getD j 0))

/-- The `for (i = 0; i < max_budget; ++i)` loop of `my_random_search`
(lines 331-344): each iteration samples a point, evaluates the objective
on it and, when `number_of_constraints > 0`, evaluates the constraints on
the same point; `c` is the problem's cumulative evaluation counter. -/
def randomSearchLoop (dimension number_of_constraints : ℕ)
    (lower upper : List ℚ) (g : ℕ → ℚ) : ℕ → ℕ → ℕ → List Ev
  | 0, _, _ => []
  | fuel + 1, i, c =>
    let x := samplePoint dimension lower upper g (i * dimension)
    if 0 < number_of_constraints then
      ⟨.func, x, c⟩ :: ⟨.cons, x, c + 1⟩ ::
        randomSearchLoop dimension number_of_constraints lower upper g
          fuel (i + 1) (c + 2)
    else
      ⟨.func, x, c⟩ ::
        randomSearchLoop dimension number_of_constraints lower upper g
          fuel (i + 1) (c + 1)

/-- Embedding of `my_random_search` (lines 312-350), as the trace of
evaluation events it performs; `c0` is the problem's cumulative
evaluation counter when the strategy is invoked. -/
def my_random_search (dimension number_of_constraints : ℕ)
    (lower_bounds upper_bounds : List ℚ) (max_budget : ℕ) (g : ℕ → ℚ)
    (c0 : ℕ) : List Ev :=
  randomSearchLoop dimension number_of_constraints lower_bounds upper_bounds
    g max_budget 0 c0

/-- The externally supplied solver (`es::rayes::RayEs`), abstracted by
its observable interaction with `my_search`: the sequence of evaluation
requests it routes through the wrappers, and — if it is never interrupted
by the budget check — whether it converges (`failMsg = none`) or surfaces
some other failure with message `msg` (`failMsg = some msg`). -/
structure SolverModel where
  attempts : List (EvKind × List ℚ)
  failMsg : Option String

/-- Exceptions that can arise inside the `try` block of `my_search`:
`BudgetExhaustedException` or any other `std::exception` with a message. -/
inductive CppExc
  | budgetExhausted
  | other (msg : String)
  deriving DecidableEq

/-- The budget-checked wrappers `evalConsWrapper` / `evalFuncWrapper` of
`my_search` (lines 451-477), processing the solver's evaluation requests
in order: each call first checks
`evaluations + evaluations_constraints > max_budget` and raises Budget
Exhausted instead of evaluating when the check trips; `c` is the
problem's cumulative evaluation counter.  Returns the performed
evaluation events, the final counter, and whether Budget Exhausted was
raised. -/
def runWrapped (max_budget : ℕ) :
    List (EvKind × List ℚ) → ℕ → List Ev × ℕ × Bool
  | [], c => ([], c, false)
  | (k, p) :: rest, c =>
    if max_budget < c then ([], c, true)
    else
      let r := runWrapped max_budget rest (c + 1)
      (⟨k, p, c⟩ :: r.1, r.2.1, r.2.2)

/-- The observable outcome of one `my_search` call: the trace of
evaluations performed (warm-up pair included), whether the run was cut
short by Budget Exhausted, and what the `catch (std::exception&)` branch
printed (`none` if nothing). -/
structure MySearchResult where
  trace : List Ev
  budgetExhaustedHit : Bool
  printed : Option String
  deriving DecidableEq

/-- Embedding of `my_search` (lines 429-519): one unconditional warm-up
evaluation pair — constraints then objective — at the initial solution
`x0` (lines 445-449), then the external solver is run against the
budget-checked wrappers inside a `try`;
`catch (BudgetExhaustedException&)` is silent,
`catch (std::exception& e)` prints `"unexpected error: " + e.what()`.
An exception escaping `my_search` would be an `Except.error`. -/
def my_search (x0 : List ℚ) (max_budget : ℕ) (c0 : ℕ)
    (solver : SolverModel) : Except CppExc MySearchResult :=
  let warmup : List Ev := [⟨.cons, x0, c0⟩, ⟨.func, x0, c0 + 1⟩]
  let r := runWrapped max_budget solver.attempts (c0 + 2)
  if r.2.2 then
    Except.ok ⟨warmup ++ r.1, true, none⟩
  else
    match solver.failMsg with
    | none => Except.ok ⟨warmup ++ r.1, false, none⟩
    | some msg =>
        Except.ok ⟨warmup ++ r.1, false, some ("unexpected error: " ++ msg)⟩

/-- The per-problem state the driver reads through the COCO problem
handle: the objective evaluation counter (`coco_problem_get_evaluations`),
the constraint evaluation counter
(`coco_problem_get_evaluations_constraints`) and the final-target-hit
flag (`coco_problem_final_target_hit`). -/
structure ProbState where
  nf : ℕ
  nc : ℕ
  targetHit : Bool
  deriving DecidableEq, Repr

/-- Why the restart loop of `example_experiment` stopped: the run counter
was exhausted, the pre-invocation break condition held (lines 256-260),
the zero-objective-progress warning fired (lines 272-277), or
`coco_error` aborted the run (lines 278-279). -/
inductive StopReason
  | runsExhausted
  | breakCond
  | malfunction
  | fatalError
  deriving DecidableEq, Repr

/-- Result of the restart loop for one problem: the final problem state,
the list of strategy invocations (pre-call state and the budget passed),
and the reason the loop stopped. -/
structure DriverResult where
  finalState : ProbState
  calls : List (ProbState × ℕ)
  stop : StopReason
  deriving DecidableEq, Repr

/-- The pre-invocation break condition of the restart loop (lines
256-260): final target hit with no constraints, or
`evaluations_remaining = dimension * BUDGET_MULTIPLIER - evaluations_done
≤ 0`. -/
def breakCond (dimension M ncons : ℕ) (s : ProbState) : Prop :=
  (s.targetHit = true ∧ ncons = 0) ∨ dimension * M ≤ s.nf + s.nc

instance (dimension M ncons : ℕ) (s : ProbState) :
    Decidable (breakCond dimension M ncons s) :=
  inferInstanceAs
    (Decidable ((s.targetHit = true ∧ ncons = 0)
      ∨ dimension * M ≤ s.nf + s.nc))

/-- The `for (run = 1; run <= 1 + INDEPENDENT_RESTARTS; run++)` restart
loop of `example_experiment` (lines 247-280) for one problem, with the
strategy invocation's effect on the problem state abstracted as `strat`
(indexed by the run number).  Mirrors, in order: the pre-invocation break
(lines 256-260), the strategy call with the remaining budget as its
`max_budget` (lines 262-270), the warning-and-break taken when the
post-call objective counter equals the pre-call objective+constraint sum
(lines 272-277), and the fatal `coco_error` on a decreased sum (lines
278-279). -/
def driverLoop (dimension M ncons : ℕ)
    (strat : ℕ → ProbState → ProbState) :
    ℕ → ℕ → ProbState → DriverResult
  | 0, _, s => ⟨s, [], .runsExhausted⟩
  | runsLeft + 1, runIdx, s =>
    let done := s.nf + s.nc
    if breakCond dimension M ncons s then ⟨s, [], .breakCond⟩
    else
      let budget := dimension * M - done
      let s2 := strat runIdx s
      if s2.nf = done then ⟨s2, [(s, budget)], .malfunction⟩
      else if s2.nf + s2.nc < done then ⟨s2, [(s, budget)], .fatalError⟩
      else
        let r := driverLoop dimension M ncons strat runsLeft (runIdx + 1) s2
        ⟨r.finalState, (s, budget) :: r.calls, r.stop⟩

/-- The per-problem portion of `example_experiment`: the restart loop
starts at run 1 and performs at most `1 + INDEPENDENT_RESTARTS` runs. -/
def example_experiment_problem (dimension M ncons IR : ℕ)
    (strat : ℕ → ProbState → ProbState) (s0 : ProbState) : DriverResult :=
  driverLoop dimension M ncons strat (1 + IR) 1 s0

/-- One per-dimension summary line, `"d=<dim> done in <value>
seconds/evaluation"`: the dimension just finished and the
`elapsed_seconds / cumulative_evaluations` value printed in it. -/
structure TimingLine where
  dim : ℕ
  secondsPerEval : ℚ
  deriving DecidableEq, Repr

/-- The `timing_data_t` state (lines 110-118): `output` holds the summary
lines written so far (slots `0 .. current_idx-1` of the array of size
`number_of_dimensions`); timestamps are rational wall-clock seconds. -/
structure TimingState where
  number_of_dimensions : ℕ
  current_idx : ℕ
  output : List TimingLine
  previous_dimension : ℕ
  cumulative_evaluations : ℕ
  start_time : ℚ
  overall_start_time : ℚ
  deriving DecidableEq, Repr

/-- Embedding of `timing_data_initialize` (lines 524-544): `N` is
`number_of_dimensions = dimension_idx + 1` decoded from the suite's last
problem index, `t0` the current time. -/
def timing_data_init (N : ℕ) (t0 : ℚ) : TimingState :=
  ⟨N, 0, [], 0, 0, t0, t0⟩

/-- The output step of `timing_data_time_problem` (lines 557-563): when
the segment just finished has nonzero cumulative evaluations, write the
summary line for `previous_dimension` into `output[current_idx]` and
increment `current_idx`. -/
def timingFlush (td : TimingState) (now : ℚ) : TimingState :=
  if 0 < td.cumulative_evaluations then
    { td with
      output := td.output ++
        [⟨td.previous_dimension,
          (now - td.start_time) / (td.cumulative_evaluations : ℚ)⟩],
      current_idx := td.current_idx + 1 }
  else td

/-- Embedding of `timing_data_time_problem` (lines 550-575): `problem` is
`some (dimension, evaluations)` or the `NULL` sentinel; `now` is the
current time (the code's two `time()` calls within one invocation are
identified). -/
def timing_data_time_problem (td : TimingState)
    (problem : Option (ℕ × ℕ)) (now : ℚ) : TimingState :=
  match problem with
  | none => timingFlush td now
  | some (dim, ev) =>
    if td.previous_dimension ≠ dim then
      let td2 := timingFlush td now
      { td2 with
        previous_dimension := dim,
        cumulative_evaluations := ev,
        start_time := now }
    else
      { td with
        cumulative_evaluations := td.cumulative_evaluations + ev }

/-- A full run of the timing instrumentation: initialize at time `t0`,
feed each problem `(dimension, evaluations)` at its timestamp, then
`timing_data_finalize` (lines 580-608): one sentinel flush at `tEnd`
followed by the total elapsed time `tEnd - overall_start_time`. -/
def timing_run (N : ℕ) (t0 : ℚ) (ps : List (ℕ × ℕ × ℚ)) (tEnd : ℚ) :
    TimingState × ℚ :=
  let td := ps.foldl
    (fun td p => timing_data_time_problem td (some (p.1, p.2.1)) p.2.2)
    (timing_data_init N t0)
  let td2 := timing_data_time_problem td none tEnd
  (td2, tEnd - td2.overall_start_time)

/-- Number of maximal runs of equal adjacent values in a list. -/
def runsCount : List ℕ → ℕ
  | [] => 0
  | [_] => 1
  | a :: b :: t => (if a = b then 0 else 1) + runsCount (b :: t)

lemma odoRank_lt (m : ℕ) (ns : List ℕ) (h : ∀ d ∈ ns, d ≤ m) :
    odoRank m ns < (m + 1) ^ ns.length := by
  induction ns with
  | nil => simp [odoRank]
  | cons d ds ih =>
    have hd : d ≤ m := h d (List.mem_cons_self d ds)
    have hr : odoRank m ds < (m + 1) ^ ds.length :=
      ih (fun e he => h e (List.mem_cons_of_mem d he))
    have h2 : (m + 1) * (odoRank m ds + 1) ≤ (m + 1) * (m + 1) ^ ds.length :=
      Nat.mul_le_mul_left _ hr
    have h3 : (m + 1) ^ ds.length * (m + 1) = (m + 1) * (m + 1) ^ ds.length :=
      mul_comm _ _
    have h4 : (m + 1) * (odoRank m ds + 1)
        = (m + 1) * odoRank m ds + (m + 1) := by ring
    simp only [odoRank, List.length_cons, pow_succ]
    omega

lemma odoStep_eq_none (m : ℕ) (ns : List ℕ) :
    odoStep m ns = none ↔ ∀ d ∈ ns, m ≤ d := by
  induction ns with
  | nil => simp [odoStep]
  | cons d ds ih =>
    simp only [odoStep, List.mem_cons]
    by_cases hd : d < m
    · rw [if_pos hd]
      constructor
      · intro h; simp at h
      · intro h
        have := h d (Or.inl rfl)
        omega
    · rw [if_neg hd]
      cases hstep : odoStep m ds with
      | some ds2 =>
        constructor
        · intro h; simp at h
        · intro h
          have hnone : odoStep m ds = none :=
            ih.mpr (fun e he => h e (Or.inr he))
          rw [hnone] at hstep
          exact Option.noConfusion hstep
      | none =>
        constructor
        · intro _ e he
          rcases he with rfl | he
          · omega
          · exact ih.mp hstep e he
        · intro _; rfl

lemma odoRank_max (m : ℕ) (ns : List ℕ) (hb : ∀ d ∈ ns, d ≤ m)
    (hm : ∀ d ∈ ns, m ≤ d) :
    odoRank m ns + 1 = (m + 1) ^ ns.length := by
  induction ns with
  | nil => simp [odoRank]
  | cons d ds ih =>
    have hd : d = m := le_antisymm (hb d (by simp)) (hm d (by simp))
    have hr : odoRank m ds + 1 = (m + 1) ^ ds.length :=
      ih (fun e he => hb e (List.mem_cons_of_mem d he))
         (fun e he => hm e (List.mem_cons_of_mem d he))
    simp only [odoRank, List.length_cons, pow_succ, hd]
    nlinarith [hr]

lemma odoStep_some (m : ℕ) (ns ns' : List ℕ) (h : odoStep m ns = some ns')
    (hb : ∀ d ∈ ns, d ≤ m) :
    (∀ d ∈ ns', d ≤ m) ∧ ns'.length = ns.length ∧
      odoRank m ns' = odoRank m ns + 1 := by
  induction ns generalizing ns' with
  | nil => simp [odoStep] at h
  | cons d ds ih =>
    simp only [odoStep] at h
    by_cases hd : d < m
    · simp only [if_pos hd] at h
      cases h
      refine ⟨?_, by simp, by simp only [odoRank]; omega⟩
      intro e he
      rcases List.mem_cons.mp he with he | he
      · omega
      · exact hb e (List.mem_cons_of_mem d he)
    · simp only [if_neg hd] at h
      cases hstep : odoStep m ds with
      | none => rw [hstep] at h; simp at h
      | some ds2 =>
        rw [hstep] at h
        cases h
        obtain ⟨hb2, hl2, hr2⟩ :=
          ih ds2 hstep (fun e he => hb e (List.mem_cons_of_mem d he))
        have hd' : d = m := le_antisymm (hb d (by simp)) (by omega)
        refine ⟨?_, by simpa using hl2, ?_⟩
        · intro e he
          rcases List.mem_cons.mp he with he | he
          · omega
          · exact hb2 e he
        · simp only [odoRank, hr2, hd']
          ring

lemma gridLoop_length (m : ℕ) (lower step : List ℚ) (fuel : ℕ) (ns : List ℕ)
    (hb : ∀ d ∈ ns, d ≤ m) :
    (gridLoop m lower step fuel ns).length
      = min fuel ((m + 1) ^ ns.length - odoRank m ns) := by
  induction fuel generalizing ns with
  | zero => simp [gridLoop]
  | succ fuel ih =>
    cases hstep : odoStep m ns with
    | none =>
      have hmax : ∀ d ∈ ns, m ≤ d := (odoStep_eq_none m ns).mp hstep
      have h1 : odoRank m ns + 1 = (m + 1) ^ ns.length := odoRank_max m ns hb hmax
      simp only [gridLoop, hstep, List.length_cons, List.length_nil]
      omega
    | some ns' =>
      obtain ⟨hb', hl', hr'⟩ := odoStep_some m ns ns' hstep hb
      have hlt : odoRank m ns' < (m + 1) ^ ns'.length := odoRank_lt m ns' hb'
      have hIH := ih ns' hb'
      rw [hl', hr'] at hIH hlt
      simp only [gridLoop, hstep, List.length_cons, hIH]
      omega

lemma gridLoop_mem (m : ℕ) (lower step : List ℚ) (fuel : ℕ) (ns : List ℕ)
    (hb : ∀ d ∈ ns, d ≤ m) :
    ∀ x ∈ gridLoop m lower step fuel ns,
      ∃ ks, (∀ d ∈ ks, d ≤ m) ∧ ks.length = ns.length ∧
        x = gridPoint lower step ks := by
  induction fuel generalizing ns with
  | zero => simp [gridLoop]
  | succ fuel ih =>
    intro x hx
    cases hstep : odoStep m ns with
    | none =>
      rw [gridLoop, hstep] at hx
      rcases List.mem_cons.mp hx with h | h
      · exact ⟨ns, hb, rfl, h⟩
      · simp at h
    | some ns' =>
      rw [gridLoop, hstep] at hx
      rcases List.mem_cons.mp hx with h | h
      · exact ⟨ns, hb, rfl, h⟩
      · obtain ⟨hb', hl', _⟩ := odoStep_some m ns ns' hstep hb
        obtain ⟨ks, h1, h2, h3⟩ := ih ns' hb' x h
        exact ⟨ks, h1, by omega, h3⟩

lemma gridPoint_coord (lower upper : List ℚ) (m : ℕ) (hm : 1 ≤ m)
    (hlen : upper.length = lower.length)
    (ks : List ℕ) (hb : ∀ d ∈ ks, d ≤ m) (hkslen : ks.length = lower.length)
    (j : ℕ) (hj : j < lower.length)
    (hlu : lower.getD j 0 ≤ upper.getD j 0) :
    lower.getD j 0 ≤
      (gridPoint lower
        (List.zipWith (fun u l => (u - l) / (m : ℚ)) upper lower) ks).getD j 0 ∧
    (gridPoint lower
        (List.zipWith (fun u l => (u - l) / (m : ℚ)) upper lower) ks).getD j 0
      ≤ upper.getD j 0 := by
  have hju : j < upper.length := by omega
  have hjk : j < ks.length := by omega
  have hjg : j < (gridPoint lower
      (List.zipWith (fun u l => (u - l) / (m : ℚ)) upper lower) ks).length := by
    rw [gridPoint, List.length_zipWith, List.length_zip, List.length_zipWith]
    omega
  rw [List.getD_eq_getElem _ _ hj, List.getD_eq_getElem _ _ hju] at hlu
  rw [List.getD_eq_getElem _ _ hjg, List.getD_eq_getElem _ _ hj,
      List.getD_eq_getElem _ _ hju]
  have hval : (gridPoint lower
      (List.zipWith (fun u l => (u - l) / (m : ℚ)) upper lower) ks)[j] =
      lower[j] + (upper[j] - lower[j]) / (m : ℚ) * (ks[j] : ℚ) := by
    simp only [gridPoint, List.getElem_zipWith, List.getElem_zip]
  rw [hval]
  have hk : (ks[j] : ℚ) ≤ (m : ℚ) := by
    exact_mod_cast hb ks[j] (List.getElem_mem hjk)
  have hk0 : (0 : ℚ) ≤ (ks[j] : ℚ) := by positivity
  have hm0 : (0 : ℚ) < (m : ℚ) := by exact_mod_cast hm
  have hstep0 : (0 : ℚ) ≤ (upper[j] - lower[j]) / (m : ℚ) := by
    apply div_nonneg _ (le_of_lt hm0)
    linarith
  constructor
  · nlinarith
  · have h1 : (upper[j] - lower[j]) / (m : ℚ) * (ks[j] : ℚ)
        ≤ (upper[j] - lower[j]) / (m : ℚ) * (m : ℚ) :=
      mul_le_mul_of_nonneg_left hk hstep0
    have h2 : (upper[j] - lower[j]) / (m : ℚ) * (m : ℚ) = upper[j] - lower[j] :=
      div_mul_cancel₀ _ (ne_of_gt hm0)
    linarith

lemma odoRank_replicate_zero (m k : ℕ) :
    odoRank m (List.replicate k 0) = 0 := by
  induction k with
  | zero => simp [odoRank]
  | succ k ih => simp [List.replicate, odoRank, ih]

/-- C1: for every `dimension ≥ 1`, `budget ≥ 1` and bound vectors with
`lower[j] ≤ upper[j]`, `my_grid_search` performs exactly
`min(budget, (max_nodes+1)^dimension)` evaluations, where
`max_nodes = max(1, floor(budget^(1/dimension)) - 1)`, and every evaluated
point `x` satisfies `lower[j] ≤ x[j] ≤ upper[j]` in every coordinate `j`. -/
theorem my_grid_search_spec (dimension max_budget : ℕ)
    (lower_bounds upper_bounds : List ℚ)
    (hd : 1 ≤ dimension) (hbud : 1 ≤ max_budget)
    (hlo : lower_bounds.length = dimension)
    (hup : upper_bounds.length = dimension)
    (hlu : ∀ j, j < dimension →
      lower_bounds.getD j 0 ≤ upper_bounds.getD j 0) :
    (my_grid_search dimension lower_bounds upper_bounds max_budget).length
        = min max_budget
            ((max 1 (natRoot max_budget dimension - 1) + 1) ^ dimension)
      ∧ ∀ x ∈ my_grid_search dimension lower_bounds upper_bounds max_budget,
          ∀ j, j < dimension →
            lower_bounds.getD j 0 ≤ x.getD j 0 ∧
              x.getD j 0 ≤ upper_bounds.getD j 0 := by
  have hm : 1 ≤ max 1 (natRoot max_budget dimension - 1) := le_max_left _ _
  have hrep : ∀ d ∈ List.replicate dimension 0,
      d ≤ max 1 (natRoot max_budget dimension - 1) := by
    intro d hdm
    rw [List.eq_of_mem_replicate hdm]
    omega
  constructor
  · rw [my_grid_search]
    rw [gridLoop_length _ _ _ _ _ hrep, List.length_replicate,
        odoRank_replicate_zero, Nat.sub_zero]
  · intro x hx j hj
    rw [my_grid_search] at hx
    obtain ⟨ks, hkb, hkl, hkval⟩ := gridLoop_mem _ _ _ _ _ hrep x hx
    rw [List.length_replicate] at hkl
    subst hkval
    have := gridPoint_coord lower_bounds upper_bounds
      (max 1 (natRoot max_budget dimension - 1)) hm (by omega) ks hkb
      (by omega) j (by omega) (hlu j hj)
    exact this

/-- Witness for C1 at the spec's own end-to-end example: dimension 2,
bounds `[-5,5]²`, budget 25, giving a 5×5 grid of exactly 25 points. -/
theorem my_grid_search_spec_witness :
    (my_grid_search 2 [-5, -5] [5, 5] 25).length
        = min 25 ((max 1 (natRoot 25 2 - 1) + 1) ^ 2)
      ∧ ∀ x ∈ my_grid_search 2 [-5, -5] [5, 5] 25,
          ∀ j, j < 2 →
            ([-5, -5] : List ℚ).getD j 0 ≤ x.getD j 0 ∧
              x.getD j 0 ≤ ([5, 5] : List ℚ).getD j 0 :=
  my_grid_search_spec 2 25 [-5, -5] [5, 5] (by norm_num) (by norm_num)
    (by simp) (by simp)
    (by intro j hj; interval_cases j <;> norm_num)

lemma randomSearchLoop_filter_func (dimension nc : ℕ) (lower upper : List ℚ)
    (g : ℕ → ℚ) (fuel i c : ℕ) :
    ((randomSearchLoop dimension nc lower upper g fuel i c).filter
        (fun e => e.kind = EvKind.func)).length = fuel := by
  induction fuel generalizing i c with
  | zero => simp [randomSearchLoop]
  | succ fuel ih =>
    by_cases h : 0 < nc <;>
      simp [randomSearchLoop, h, List.filter, ih]

lemma randomSearchLoop_filter_cons (dimension nc : ℕ) (lower upper : List ℚ)
    (g : ℕ → ℚ) (fuel i c : ℕ) :
    ((randomSearchLoop dimension nc lower upper g fuel i c).filter
        (fun e => e.kind = EvKind.cons)).length
      = if 0 < nc then fuel else 0 := by
  induction fuel generalizing i c with
  | zero => simp [randomSearchLoop]
  | succ fuel ih =>
    by_cases h : 0 < nc <;>
      simp [randomSearchLoop, h, List.filter, ih]

lemma randomSearchLoop_pairing (dimension nc : ℕ) (lower upper : List ℚ)
    (g : ℕ → ℚ) (fuel i c : ℕ) (h : 0 < nc) :
    ((randomSearchLoop dimension nc lower upper g fuel i c).filter
        (fun e => e.kind = EvKind.cons)).map Ev.point
      = ((randomSearchLoop dimension nc lower upper g fuel i c).filter
        (fun e => e.kind = EvKind.func)).map Ev.point := by
  induction fuel generalizing i c with
  | zero => simp [randomSearchLoop]
  | succ fuel ih =>
    simp [randomSearchLoop, h, List.filter, ih]

lemma randomSearchLoop_point (dimension nc : ℕ) (lower upper : List ℚ)
    (g : ℕ → ℚ) (fuel i c : ℕ) :
    ∀ e ∈ randomSearchLoop dimension nc lower upper g fuel i c,
      ∃ base, e.point = samplePoint dimension lower upper g base := by
  induction fuel generalizing i c with
  | zero => simp [randomSearchLoop]
  | succ fuel ih =>
    intro e he
    simp only [randomSearchLoop] at he
    by_cases h : 0 < nc
    · rw [if_pos h] at he
      simp only [List.mem_cons] at he
      rcases he with rfl | rfl | he
      · exact ⟨i * dimension, rfl⟩
      · exact ⟨i * dimension, rfl⟩
      · exact ih (i + 1) (c + 2) e he
    · rw [if_neg h] at he
      simp only [List.mem_cons] at he
      rcases he with rfl | he
      · exact ⟨i * dimension, rfl⟩
      · exact ih (i + 1) (c + 1) e he

lemma samplePoint_coord (dimension : ℕ) (lower upper : List ℚ) (g : ℕ → ℚ)
    (base j : ℕ) (hj : j < dimension)
    (hg0 : 0 ≤ g (base + j)) (hg1 : g (base + j) < 1)
    (hlu : lower.getD j 0 < upper.getD j 0) :
    lower.getD j 0 ≤ (samplePoint dimension lower upper g base).getD j 0 ∧
      (samplePoint dimension lower upper g base).getD j 0 < upper.getD j 0 := by
  have hjs : j < (samplePoint dimension lower upper g base).length := by
    rw [samplePoint, List.length_map, List.length_range]
    exact hj
  rw [List.getD_eq_getElem _ _ hjs]
  have hval : (samplePoint dimension lower upper g base)[j]
      = lower.getD j 0 + g (base + j) * (upper.getD j 0 - lower.getD j 0) := by
    simp [samplePoint]
  rw [hval]
  constructor
  · nlinarith
  · nlinarith

/-- C7 (amended): for every budget and bound vectors with
`lower[j] < upper[j]`, and every uniform stream with values in `[0,1)`,
`my_random_search` performs exactly `budget` objective evaluations, plus
exactly `budget` constraint evaluations when `number_of_constraints > 0`
(each on the same point as the corresponding objective evaluation), and
every sampled coordinate lies in `[lower[j], upper[j])`.  (The original
claim, quantified over all bound vectors, fails when
`lower[j] = upper[j]`: the sampled coordinate then equals `lower[j]`,
which is outside the empty half-open interval.) -/
theorem my_random_search_spec (dimension number_of_constraints : ℕ)
    (lower_bounds upper_bounds : List ℚ) (max_budget : ℕ) (g : ℕ → ℚ)
    (c0 : ℕ) (hg : ∀ n, 0 ≤ g n ∧ g n < 1)
    (hlu : ∀ j, j < dimension →
      lower_bounds.getD j 0 < upper_bounds.getD j 0) :
    ((my_random_search dimension number_of_constraints lower_bounds
          upper_bounds max_budget g c0).filter
        (fun e => e.kind = EvKind.func)).length = max_budget
    ∧ ((my_random_search dimension number_of_constraints lower_bounds
          upper_bounds max_budget g c0).filter
        (fun e => e.kind = EvKind.cons)).length
      = (if 0 < number_of_constraints then max_budget else 0)
    ∧ (0 < number_of_constraints →
        ((my_random_search dimension number_of_constraints lower_bounds
            upper_bounds max_budget g c0).filter
          (fun e => e.kind = EvKind.cons)).map Ev.point
        = ((my_random_search dimension number_of_constraints lower_bounds
            upper_bounds max_budget g c0).filter
          (fun e => e.kind = EvKind.func)).map Ev.point)
    ∧ ∀ e ∈ my_random_search dimension number_of_constraints lower_bounds
          upper_bounds max_budget g c0,
        ∀ j, j < dimension →
          lower_bounds.getD j 0 ≤ e.point.getD j 0 ∧
            e.point.getD j 0 < upper_bounds.getD j 0 := by
  refine ⟨randomSearchLoop_filter_func _ _ _ _ _ _ _ _,
    randomSearchLoop_filter_cons _ _ _ _ _ _ _ _,
    fun h => randomSearchLoop_pairing _ _ _ _ _ _ _ _ h, ?_⟩
  intro e he j hj
  obtain ⟨base, hbase⟩ :=
    randomSearchLoop_point dimension number_of_constraints lower_bounds
      upper_bounds g max_budget 0 c0 e he
  rw [hbase]
  exact samplePoint_coord dimension lower_bounds upper_bounds g base j hj
    (hg (base + j)).1 (hg (base + j)).2 (hlu j hj)

/-- Witness for C7's amended theorem at dimension 1, one constraint,
bounds `[0,1)`, budget 2 and the constant stream `1/2`. -/
theorem my_random_search_spec_witness :
    ((my_random_search 1 1 [0] [1] 2 (fun _ => 1/2) 0).filter
        (fun e => e.kind = EvKind.func)).length = 2
    ∧ ((my_random_search 1 1 [0] [1] 2 (fun _ => 1/2) 0).filter
        (fun e => e.kind = EvKind.cons)).length = (if 0 < 1 then 2 else 0)
    ∧ (0 < 1 →
        ((my_random_search 1 1 [0] [1] 2 (fun _ => 1/2) 0).filter
          (fun e => e.kind = EvKind.cons)).map Ev.point
        = ((my_random_search 1 1 [0] [1] 2 (fun _ => 1/2) 0).filter
          (fun e => e.kind = EvKind.func)).map Ev.point)
    ∧ ∀ e ∈ my_random_search 1 1 [0] [1] 2 (fun _ => 1/2) 0,
        ∀ j, j < 1 →
          ([0] : List ℚ).getD j 0 ≤ e.point.getD j 0 ∧
            e.point.getD j 0 < ([1] : List ℚ).getD j 0 :=
  my_random_search_spec 1 1 [0] [1] 2 (fun _ => 1/2) 0
    (fun n => by norm_num)
    (by intro j hj; interval_cases j <;> norm_num)

/-- Counterexample to C7 as stated: with degenerate bounds
`lower = upper = [0]` every sampled coordinate equals `0`, which does not
lie in the empty half-open interval `[0, 0)`. -/
theorem my_random_search_halfopen_cex :
    ¬ (((my_random_search 1 1 [0] [0] 1 (fun _ => 0) 0).filter
          (fun e => e.kind = EvKind.func)).length = 1
      ∧ ((my_random_search 1 1 [0] [0] 1 (fun _ => 0) 0).filter
          (fun e => e.kind = EvKind.cons)).length = 1
      ∧ ∀ e ∈ my_random_search 1 1 [0] [0] 1 (fun _ => 0) 0,
          ∀ j, j < 1 →
            ([0] : List ℚ).getD j 0 ≤ e.point.getD j 0 ∧
              e.point.getD j 0 < ([0] : List ℚ).getD j 0) := by
  rintro ⟨-, -, hmem⟩
  have htr : my_random_search 1 1 [0] [0] 1 (fun _ => 0) 0
      = [⟨.func, [0], 0⟩, ⟨.cons, [0], 1⟩] := by
    norm_num [my_random_search, randomSearchLoop, samplePoint,
      List.range_succ]
  have h0 := hmem ⟨.func, [0], 0⟩ (by rw [htr]; simp) 0 (by norm_num)
  simp at h0

/-- C3: `my_search` performs the warm-up pair first — exactly one
constraint evaluation followed by one objective evaluation at the
problem's initial solution — unconditionally, independent of
`max_budget`; and with `max_budget = 0` no evaluation beyond the warm-up
pair occurs, and as soon as the solver attempts any evaluation the run
terminates through the Budget Exhausted path: caught, normal return,
nothing printed (so not via solver failure). -/
theorem my_search_warmup (x0 : List ℚ) (max_budget c0 : ℕ)
    (solver : SolverModel) :
    ∃ r, my_search x0 max_budget c0 solver = Except.ok r
      ∧ r.trace.take 2 = [⟨EvKind.cons, x0, c0⟩, ⟨EvKind.func, x0, c0 + 1⟩]
      ∧ (max_budget = 0 →
          r.trace = [⟨EvKind.cons, x0, c0⟩, ⟨EvKind.func, x0, c0 + 1⟩]
          ∧ (solver.attempts ≠ [] →
              r.budgetExhaustedHit = true ∧ r.printed = none)) := by
  rw [my_search]
  have htake : ∀ evs : List Ev,
      (([⟨EvKind.cons, x0, c0⟩, ⟨EvKind.func, x0, c0 + 1⟩] : List Ev)
        ++ evs).take 2
        = [⟨EvKind.cons, x0, c0⟩, ⟨EvKind.func, x0, c0 + 1⟩] := by
    intro evs
    simp
  have hzero : max_budget = 0 →
      (runWrapped max_budget solver.attempts (c0 + 2)).1 = []
      ∧ ((runWrapped max_budget solver.attempts (c0 + 2)).2.2 = true
          ↔ solver.attempts ≠ []) := by
    rintro rfl
    cases hatt : solver.attempts with
    | nil => simp [runWrapped]
    | cons a rest =>
      obtain ⟨k, p⟩ := a
      rw [runWrapped, if_pos (by omega : (0 : ℕ) < c0 + 2)]
      simp
  cases hex : (runWrapped max_budget solver.attempts (c0 + 2)).2.2 with
  | true =>
    refine ⟨⟨[⟨EvKind.cons, x0, c0⟩, ⟨EvKind.func, x0, c0 + 1⟩]
        ++ (runWrapped max_budget solver.attempts (c0 + 2)).1, true, none⟩,
      by simp [hex], htake _, ?_⟩
    intro h0
    obtain ⟨hevs, -⟩ := hzero h0
    exact ⟨by simp [hevs], fun _ => ⟨rfl, rfl⟩⟩
  | false =>
    cases hfail : solver.failMsg with
    | none =>
      refine ⟨⟨[⟨EvKind.cons, x0, c0⟩, ⟨EvKind.func, x0, c0 + 1⟩]
          ++ (runWrapped max_budget solver.attempts (c0 + 2)).1,
          false, none⟩,
        by simp [hex, hfail], htake _, ?_⟩
      intro h0
      obtain ⟨hevs, hiff⟩ := hzero h0
      rw [hex] at hiff
      exact ⟨by simp [hevs],
        fun hne => absurd (hiff.mpr hne) (by simp)⟩
    | some msg =>
      refine ⟨⟨[⟨EvKind.cons, x0, c0⟩, ⟨EvKind.func, x0, c0 + 1⟩]
          ++ (runWrapped max_budget solver.attempts (c0 + 2)).1,
          false, some ("unexpected error: " ++ msg)⟩,
        by simp [hex, hfail], htake _, ?_⟩
      intro h0
      obtain ⟨hevs, hiff⟩ := hzero h0
      rw [hex] at hiff
      exact ⟨by simp [hevs],
        fun hne => absurd (hiff.mpr hne) (by simp)⟩

/-- Witness for C3 at `max_budget = 0`, a solver attempting one
evaluation and set up to fail with "boom" if it were ever reached: only
the warm-up pair runs, Budget Exhausted is hit, nothing is printed. -/
theorem my_search_warmup_witness :
    ∃ r, my_search [1] 0 0 ⟨[(EvKind.func, [2])], some "boom"⟩
        = Except.ok r
      ∧ r.trace = [⟨EvKind.cons, [1], 0⟩, ⟨EvKind.func, [1], 1⟩]
      ∧ r.budgetExhaustedHit = true ∧ r.printed = none := by
  obtain ⟨r, hok, -, h0⟩ :=
    my_search_warmup [1] 0 0 ⟨[(EvKind.func, [2])], some "boom"⟩
  obtain ⟨htr, hbe⟩ := h0 rfl
  exact ⟨r, hok, htr, (hbe (by simp)).1, (hbe (by simp)).2⟩

/-- C6: a Budget Exhausted raised by the wrappers is caught at the
strategy boundary and `my_search` returns normally with nothing printed;
any other failure surfaced by the solver run is caught, its message
printed, and `my_search` returns normally. -/
theorem my_search_catches (x0 : List ℚ) (max_budget c0 : ℕ)
    (solver : SolverModel) :
    ∃ r, my_search x0 max_budget c0 solver = Except.ok r
      ∧ ((runWrapped max_budget solver.attempts (c0 + 2)).2.2 = true →
          r.budgetExhaustedHit = true ∧ r.printed = none)
      ∧ ((runWrapped max_budget solver.attempts (c0 + 2)).2.2 = false →
          ∀ msg, solver.failMsg = some msg →
            r.printed = some ("unexpected error: " ++ msg)) := by
  cases hex : (runWrapped max_budget solver.attempts (c0 + 2)).2.2 with
  | true =>
    refine ⟨⟨[⟨EvKind.cons, x0, c0⟩, ⟨EvKind.func, x0, c0 + 1⟩]
        ++ (runWrapped max_budget solver.attempts (c0 + 2)).1, true, none⟩,
      by rw [my_search]; simp [hex], fun _ => ⟨rfl, rfl⟩, ?_⟩
    intro hfalse
    exact Bool.noConfusion hfalse
  | false =>
    cases hfail : solver.failMsg with
    | none =>
      refine ⟨⟨[⟨EvKind.cons, x0, c0⟩, ⟨EvKind.func, x0, c0 + 1⟩]
          ++ (runWrapped max_budget solver.attempts (c0 + 2)).1,
          false, none⟩,
        by rw [my_search]; simp [hex, hfail], ?_, ?_⟩
      · intro htrue
        exact Bool.noConfusion htrue
      · intro _ msg hmsg
        exact Option.noConfusion hmsg
    | some msg =>
      refine ⟨⟨[⟨EvKind.cons, x0, c0⟩, ⟨EvKind.func, x0, c0 + 1⟩]
          ++ (runWrapped max_budget solver.attempts (c0 + 2)).1,
          false, some ("unexpected error: " ++ msg)⟩,
        by rw [my_search]; simp [hex, hfail], ?_, ?_⟩
      · intro htrue
        exact Bool.noConfusion htrue
      · intro _ msg2 hmsg
        cases hmsg
        rfl

/-- Witness for C6 with a failing solver that is not interrupted by the
budget check: the failure is caught and its message printed. -/
theorem my_search_catches_witness :
    ∃ r, my_search [1] 10 0 ⟨[], some "boom"⟩ = Except.ok r
      ∧ r.printed = some ("unexpected error: " ++ "boom") := by
  obtain ⟨r, hok, -, hprint⟩ := my_search_catches [1] 10 0 ⟨[], some "boom"⟩
  exact ⟨r, hok, hprint (by rw [runWrapped]) "boom" rfl⟩

lemma driverLoop_calls_length_le (dimension M ncons : ℕ)
    (strat : ℕ → ProbState → ProbState) (rl i : ℕ) (s : ProbState) :
    (driverLoop dimension M ncons strat rl i s).calls.length ≤ rl := by
  induction rl generalizing i s with
  | zero => simp [driverLoop]
  | succ rl ih =>
    simp only [driverLoop]
    by_cases hbr : breakCond dimension M ncons s
    · rw [if_pos hbr]
      simp
    · rw [if_neg hbr]
      by_cases hw : (strat i s).nf = s.nf + s.nc
      · rw [if_pos hw]
        simp
      · rw [if_neg hw]
        by_cases hf : (strat i s).nf + (strat i s).nc < s.nf + s.nc
        · rw [if_pos hf]
          simp
        · rw [if_neg hf]
          simpa using Nat.succ_le_succ (ih (i + 1) (strat i s))

lemma driverLoop_calls_spec (dimension M ncons : ℕ)
    (strat : ℕ → ProbState → ProbState) (rl i : ℕ) (s : ProbState) :
    ∀ c ∈ (driverLoop dimension M ncons strat rl i s).calls,
      ¬ breakCond dimension M ncons c.1
      ∧ c.2 = dimension * M - (c.1.nf + c.1.nc) := by
  induction rl generalizing i s with
  | zero => simp [driverLoop]
  | succ rl ih =>
    intro c hc
    simp only [driverLoop] at hc
    by_cases hbr : breakCond dimension M ncons s
    · rw [if_pos hbr] at hc
      simp at hc
    · rw [if_neg hbr] at hc
      by_cases hw : (strat i s).nf = s.nf + s.nc
      · rw [if_pos hw] at hc
        simp at hc
        rw [hc]
        exact ⟨hbr, rfl⟩
      · rw [if_neg hw] at hc
        by_cases hf : (strat i s).nf + (strat i s).nc < s.nf + s.nc
        · rw [if_pos hf] at hc
          simp at hc
          rw [hc]
          exact ⟨hbr, rfl⟩
        · rw [if_neg hf] at hc
          simp only [List.mem_cons] at hc
          rcases hc with rfl | hc
          · exact ⟨hbr, rfl⟩
          · exact ih (i + 1) (strat i s) c hc

lemma driverLoop_stop_breakCond (dimension M ncons : ℕ)
    (strat : ℕ → ProbState → ProbState) (rl i : ℕ) (s : ProbState)
    (h : (driverLoop dimension M ncons strat rl i s).stop
      = StopReason.breakCond) :
    breakCond dimension M ncons
      (driverLoop dimension M ncons strat rl i s).finalState := by
  induction rl generalizing i s with
  | zero => simp [driverLoop] at h
  | succ rl ih =>
    simp only [driverLoop] at h ⊢
    by_cases hbr : breakCond dimension M ncons s
    · rw [if_pos hbr] at h ⊢
      exact hbr
    · rw [if_neg hbr] at h ⊢
      by_cases hw : (strat i s).nf = s.nf + s.nc
      · rw [if_pos hw] at h
        simp at h
      · rw [if_neg hw] at h ⊢
        by_cases hf : (strat i s).nf + (strat i s).nc < s.nf + s.nc
        · rw [if_pos hf] at h
          simp at h
        · rw [if_neg hf] at h ⊢
          exact ih (i + 1) (strat i s) h

lemma driverLoop_malfunction_calls_ne (dimension M ncons : ℕ)
    (strat : ℕ → ProbState → ProbState) (rl i : ℕ) (s : ProbState)
    (h : (driverLoop dimension M ncons strat rl i s).stop
      = StopReason.malfunction) :
    (driverLoop dimension M ncons strat rl i s).calls ≠ [] := by
  induction rl generalizing i s with
  | zero => simp [driverLoop] at h
  | succ rl ih =>
    simp only [driverLoop] at h ⊢
    by_cases hbr : breakCond dimension M ncons s
    · rw [if_pos hbr] at h
      simp at h
    · rw [if_neg hbr] at h ⊢
      by_cases hw : (strat i s).nf = s.nf + s.nc
      · rw [if_pos hw]
        simp
      · rw [if_neg hw] at h ⊢
        by_cases hf : (strat i s).nf + (strat i s).nc < s.nf + s.nc
        · rw [if_pos hf]
          simp
        · rw [if_neg hf]
          simp

lemma driverLoop_calls_pos (dimension M ncons : ℕ)
    (strat : ℕ → ProbState → ProbState) (rl i : ℕ) (s : ProbState)
    (hbr : ¬ breakCond dimension M ncons s) :
    1 ≤ (driverLoop dimension M ncons strat (rl + 1) i s).calls.length := by
  simp only [driverLoop]
  rw [if_neg hbr]
  by_cases hw : (strat i s).nf = s.nf + s.nc
  · rw [if_pos hw]
    simp
  · rw [if_neg hw]
    by_cases hf : (strat i s).nf + (strat i s).nc < s.nf + s.nc
    · rw [if_pos hf]
      simp
    · rw [if_neg hf]
      simp

/-- C8: for every accepted (fresh) problem the driver invokes the
strategy at least once and at most `1 + INDEPENDENT_RESTARTS` times;
every invocation happens only when the pre-invocation break condition
(final target hit with no constraints, or `evaluations_remaining ≤ 0`)
fails, and passes `evaluations_remaining =
dimension * BUDGET_MULTIPLIER - evaluations_done` as the budget; and
whenever the loop stops through that break, the condition holds at the
final state. -/
theorem example_experiment_restart_policy (dimension M ncons IR : ℕ)
    (strat : ℕ → ProbState → ProbState) (hDM : 1 ≤ dimension * M) :
    1 ≤ (example_experiment_problem dimension M ncons IR strat
        ⟨0, 0, false⟩).calls.length
    ∧ (example_experiment_problem dimension M ncons IR strat
        ⟨0, 0, false⟩).calls.length ≤ 1 + IR
    ∧ (∀ c ∈ (example_experiment_problem dimension M ncons IR strat
          ⟨0, 0, false⟩).calls,
        ¬ breakCond dimension M ncons c.1
        ∧ c.2 = dimension * M - (c.1.nf + c.1.nc))
    ∧ ((example_experiment_problem dimension M ncons IR strat
          ⟨0, 0, false⟩).stop = StopReason.breakCond →
        breakCond dimension M ncons
          (example_experiment_problem dimension M ncons IR strat
            ⟨0, 0, false⟩).finalState) := by
  have hbr : ¬ breakCond dimension M ncons ⟨0, 0, false⟩ := by
    intro h
    rcases h with ⟨h1, -⟩ | h2
    · exact Bool.noConfusion h1
    · have h3 : dimension * M ≤ 0 + 0 := h2
      omega
  refine ⟨?_, ?_, ?_, ?_⟩
  · rw [example_experiment_problem, Nat.add_comm 1 IR]
    exact driverLoop_calls_pos dimension M ncons strat IR 1 _ hbr
  · rw [example_experiment_problem]
    exact driverLoop_calls_length_le dimension M ncons strat (1 + IR) 1 _
  · rw [example_experiment_problem]
    exact driverLoop_calls_spec dimension M ncons strat (1 + IR) 1 _
  · rw [example_experiment_problem]
    exact driverLoop_stop_breakCond dimension M ncons strat (1 + IR) 1 _

/-- Witness for C8 with dimension 1, multiplier 5, no constraints, no
restarts and a strategy doing one objective evaluation per call. -/
theorem example_experiment_restart_policy_witness :
    1 ≤ (example_experiment_problem 1 5 0 0
        (fun _ s => ⟨s.nf + 1, s.nc, s.targetHit⟩)
        ⟨0, 0, false⟩).calls.length
    ∧ (example_experiment_problem 1 5 0 0
        (fun _ s => ⟨s.nf + 1, s.nc, s.targetHit⟩)
        ⟨0, 0, false⟩).calls.length ≤ 1 + 0
    ∧ (∀ c ∈ (example_experiment_problem 1 5 0 0
          (fun _ s => ⟨s.nf + 1, s.nc, s.targetHit⟩) ⟨0, 0, false⟩).calls,
        ¬ breakCond 1 5 0 c.1 ∧ c.2 = 1 * 5 - (c.1.nf + c.1.nc))
    ∧ ((example_experiment_problem 1 5 0 0
          (fun _ s => ⟨s.nf + 1, s.nc, s.targetHit⟩)
          ⟨0, 0, false⟩).stop = StopReason.breakCond →
        breakCond 1 5 0
          (example_experiment_problem 1 5 0 0
            (fun _ s => ⟨s.nf + 1, s.nc, s.targetHit⟩)
            ⟨0, 0, false⟩).finalState) :=
  example_experiment_restart_policy 1 5 0 0
    (fun _ s => ⟨s.nf + 1, s.nc, s.targetHit⟩) (by norm_num)

/-- Counterexample to C4 as stated: with one pre-existing constraint
evaluation possible the check at line 273 compares the post-call
*objective* counter with the pre-call objective+constraint *sum*.  Here
the strategy performs one constraint evaluation (and no objective one):
the driver warns even though the strategy did evaluate, so the warning is
not emitted "exactly when the strategy performed zero evaluations". -/
theorem driver_warn_zero_evals_cex :
    ¬ (((example_experiment_problem 1 10 1 0
          (fun _ s => ⟨s.nf, s.nc + 1, s.targetHit⟩)
          ⟨0, 0, false⟩).stop = StopReason.malfunction)
        ↔ ((example_experiment_problem 1 10 1 0
            (fun _ s => ⟨s.nf, s.nc + 1, s.targetHit⟩)
            ⟨0, 0, false⟩).finalState.nf = 0
          ∧ (example_experiment_problem 1 10 1 0
            (fun _ s => ⟨s.nf, s.nc + 1, s.targetHit⟩)
            ⟨0, 0, false⟩).finalState.nc = 0)) := by
  have hres : example_experiment_problem 1 10 1 0
      (fun _ s => ⟨s.nf, s.nc + 1, s.targetHit⟩) ⟨0, 0, false⟩
      = ⟨⟨0, 1, false⟩, [(⟨0, 0, false⟩, 10)], StopReason.malfunction⟩ := by
    rfl
  rw [hres]
  intro h
  have := h.mp rfl
  simp at this

/-- C4 (amended): at any reachable strategy invocation (pre-state `s`,
break condition false), the driver emits the warning and aborts further
restarts at exactly this invocation — the result records this single call
and the `malfunction` (non-fatal) stop — if and only if the post-call
*objective* evaluation counter equals the *pre-call sum* of objective and
constraint evaluations (which coincides with "the strategy performed zero
evaluations" only when no constraint evaluations had occurred before the
call and none are performed by it). -/
theorem driver_warn_iff (dimension M ncons : ℕ)
    (strat : ℕ → ProbState → ProbState) (rl i : ℕ) (s : ProbState)
    (hbr : ¬ breakCond dimension M ncons s) :
    (strat i s).nf = s.nf + s.nc
      ↔ driverLoop dimension M ncons strat (rl + 1) i s
          = ⟨strat i s, [(s, dimension * M - (s.nf + s.nc))],
              StopReason.malfunction⟩ := by
  simp only [driverLoop]
  rw [if_neg hbr]
  by_cases hw : (strat i s).nf = s.nf + s.nc
  · rw [if_pos hw]
    simp [hw]
  · rw [if_neg hw]
    by_cases hf : (strat i s).nf + (strat i s).nc < s.nf + s.nc
    · rw [if_pos hf]
      constructor
      · intro h
        exact absurd h hw
      · intro h
        have hstop := congrArg DriverResult.stop h
        simp at hstop
    · rw [if_neg hf]
      constructor
      · intro h
        exact absurd h hw
      · intro h
        have hstop := congrArg DriverResult.stop h
        have hcalls := congrArg DriverResult.calls h
        simp only at hstop hcalls
        have hne := driverLoop_malfunction_calls_ne dimension M ncons strat
          rl (i + 1) (strat i s) hstop
        simp at hcalls
        exact absurd hcalls hne

/-- Witness for C4's amended theorem: a strategy performing no
evaluations at all from a fresh state, so the compared quantities agree
and the driver warns and stops after this single call. -/
theorem driver_warn_iff_witness :
    ((fun (_ : ℕ) (_ : ProbState) => (⟨0, 0, false⟩ : ProbState)) 1
        ⟨0, 0, false⟩).nf = (0 : ℕ) + 0
      ↔ driverLoop 1 5 0 (fun _ _ => ⟨0, 0, false⟩) (3 + 1) 1 ⟨0, 0, false⟩
          = ⟨⟨0, 0, false⟩, [(⟨0, 0, false⟩, 1 * 5 - (0 + 0))],
              StopReason.malfunction⟩ :=
  driver_warn_iff 1 5 0 (fun _ _ => ⟨0, 0, false⟩) 3 1 ⟨0, 0, false⟩
    (by
      intro h
      rcases h with ⟨h1, -⟩ | h2
      · exact Bool.noConfusion h1
      · simp at h2)

/-- C5: whenever a strategy invocation leaves the objective+constraint
sum strictly below its pre-call value, the driver deterministically takes
the fatal `coco_error` path that aborts the run (the warning branch at
line 273 cannot mask it: a decreased sum forces the post-call objective
counter below the pre-call sum). -/
theorem driver_fatal_on_regression (dimension M ncons : ℕ)
    (strat : ℕ → ProbState → ProbState) (rl i : ℕ) (s : ProbState)
    (hbr : ¬ breakCond dimension M ncons s)
    (hreg : (strat i s).nf + (strat i s).nc < s.nf + s.nc) :
    driverLoop dimension M ncons strat (rl + 1) i s
      = ⟨strat i s, [(s, dimension * M - (s.nf + s.nc))],
          StopReason.fatalError⟩ := by
  simp only [driverLoop]
  rw [if_neg hbr]
  have hw : ¬ (strat i s).nf = s.nf + s.nc := by omega
  rw [if_neg hw, if_pos hreg]

/-- Witness for C5: a mock strategy that zeroes both counters from the
state `(nf, nc) = (1, 1)`: the fatal path is taken. -/
theorem driver_fatal_on_regression_witness :
    driverLoop 1 5 0 (fun _ _ => ⟨0, 0, false⟩) (0 + 1) 1 ⟨1, 1, false⟩
      = ⟨⟨0, 0, false⟩, [(⟨1, 1, false⟩, 1 * 5 - (1 + 1))],
          StopReason.fatalError⟩ :=
  driver_fatal_on_regression 1 5 0 (fun _ _ => ⟨0, 0, false⟩) 0 1
    ⟨1, 1, false⟩
    (by
      intro h
      rcases h with ⟨h1, -⟩ | h2
      · exact Bool.noConfusion h1
      · simp at h2)
    (by simp)

lemma runWrapped_counts (b : ℕ) (atts : List (EvKind × List ℚ)) (c : ℕ) :
    ∀ e ∈ (runWrapped b atts c).1, e.countAtInit ≤ b := by
  induction atts generalizing c with
  | nil => simp [runWrapped]
  | cons a rest ih =>
    obtain ⟨k, p⟩ := a
    intro e he
    rw [runWrapped] at he
    by_cases hc : b < c
    · rw [if_pos hc] at he
      simp at he
    · rw [if_neg hc] at he
      simp only [List.mem_cons] at he
      rcases he with rfl | he
      · simpa using Nat.le_of_not_lt hc
      · exact ih (c + 1) e he

lemma randomSearchLoop_length (dimension nc : ℕ) (lo up : List ℚ)
    (g : ℕ → ℚ) (fuel i c : ℕ) :
    (randomSearchLoop dimension nc lo up g fuel i c).length
      = (if 0 < nc then 2 else 1) * fuel := by
  induction fuel generalizing i c with
  | zero => simp [randomSearchLoop]
  | succ fuel ih =>
    by_cases h : 0 < nc
    · simp only [randomSearchLoop, if_pos h, List.length_cons,
        ih (i + 1) (c + 2)]
      omega
    · simp only [randomSearchLoop, if_neg h, List.length_cons,
        ih (i + 1) (c + 1)]
      omega

lemma my_grid_search_length_le (dimension : ℕ) (lo up : List ℚ)
    (mb : ℕ) :
    (my_grid_search dimension lo up mb).length ≤ mb := by
  have hrep : ∀ d ∈ List.replicate dimension 0,
      d ≤ max 1 (natRoot mb dimension - 1) := by
    intro d hdm
    rw [List.eq_of_mem_replicate hdm]
    omega
  rw [my_grid_search, gridLoop_length _ _ _ _ _ hrep]
  exact Nat.min_le_left _ _

lemma driverLoop_budget_pos (dimension M ncons : ℕ)
    (strat : ℕ → ProbState → ProbState) (rl i : ℕ) (s : ProbState) :
    ∀ c ∈ (driverLoop dimension M ncons strat rl i s).calls, 0 < c.2 := by
  intro c hc
  obtain ⟨hnb, hb⟩ :=
    driverLoop_calls_spec dimension M ncons strat rl i s c hc
  rw [breakCond] at hnb
  push_neg at hnb
  omega

/-- C2 (amended): the driver never invokes a strategy with a budget ≤ 0
(every recorded invocation's budget is positive); the directed strategy's
wrappers initiate an evaluation only while the cumulative
objective+constraint count does not exceed `max_budget` (the check throws
strictly above it, so the count can reach `max_budget + 1`, and the
warm-up pair is unchecked); grid search stops initiating evaluations at
its budget; random search bounds *iterations* rather than evaluations, so
with constraints present it performs `2 × budget` evaluations and keeps
initiating evaluations after the cumulative count has reached its budget
(the original claim fails there). -/
theorem budget_accounting (dimension M ncons : ℕ)
    (strat : ℕ → ProbState → ProbState) (rl i : ℕ) (s : ProbState)
    (b : ℕ) (atts : List (EvKind × List ℚ)) (c : ℕ)
    (dimension2 ncons2 mb : ℕ) (lo up : List ℚ) (g : ℕ → ℚ) (c0 : ℕ) :
    (∀ call ∈ (driverLoop dimension M ncons strat rl i s).calls,
        0 < call.2)
    ∧ (∀ e ∈ (runWrapped b atts c).1, e.countAtInit ≤ b)
    ∧ (my_random_search dimension2 ncons2 lo up mb g c0).length
        = (if 0 < ncons2 then 2 else 1) * mb
    ∧ (my_grid_search dimension2 lo up mb).length ≤ mb :=
  ⟨driverLoop_budget_pos dimension M ncons strat rl i s,
    runWrapped_counts b atts c,
    randomSearchLoop_length dimension2 ncons2 lo up g mb 0 c0,
    my_grid_search_length_le dimension2 lo up mb⟩

/-- Counterexample to C2 as stated: `my_random_search` with one
constraint and budget 2 initiates its third evaluation (the second
iteration's objective evaluation) when the cumulative
objective+constraint count is already 2 = budget. -/
theorem budget_cutoff_cex :
    ¬ (∀ e ∈ my_random_search 1 1 [0] [1] 2 (fun _ => 0) 0,
        e.countAtInit < 2) := by
  intro h
  have htr : my_random_search 1 1 [0] [1] 2 (fun _ => 0) 0
      = [⟨.func, [0], 0⟩, ⟨.cons, [0], 1⟩,
         ⟨.func, [0], 2⟩, ⟨.cons, [0], 3⟩] := by
    norm_num [my_random_search, randomSearchLoop, samplePoint,
      List.range_succ]
  have h2 := h ⟨.func, [0], 2⟩ (by rw [htr]; simp)
  simp at h2

lemma timing_step_idx_inv (td : TimingState) (p : Option (ℕ × ℕ))
    (now : ℚ) (h : td.current_idx = td.output.length) :
    (timing_data_time_problem td p now).current_idx
      = (timing_data_time_problem td p now).output.length := by
  have hfl : (timingFlush td now).current_idx
      = (timingFlush td now).output.length := by
    rw [timingFlush]
    by_cases hc : 0 < td.cumulative_evaluations
    · rw [if_pos hc]
      simp [h]
    · rw [if_neg hc]
      exact h
  match p with
  | none => exact hfl
  | some (dim, ev) =>
    rw [timing_data_time_problem]
    by_cases hd : td.previous_dimension ≠ dim
    · rw [if_pos hd]
      exact hfl
    · rw [if_neg hd]
      exact h

lemma timing_foldl_idx_inv (ps : List (ℕ × ℕ × ℚ)) (td : TimingState)
    (h : td.current_idx = td.output.length) :
    (ps.foldl
      (fun td p => timing_data_time_problem td (some (p.1, p.2.1)) p.2.2)
      td).current_idx
    = (ps.foldl
      (fun td p => timing_data_time_problem td (some (p.1, p.2.1)) p.2.2)
      td).output.length := by
  induction ps generalizing td with
  | nil => exact h
  | cons p rest ih =>
    rw [List.foldl_cons]
    exact ih _ (timing_step_idx_inv td _ _ h)

lemma timing_emissions_le (ps : List (ℕ × ℕ × ℚ)) (td : TimingState)
    (tEnd : ℚ) :
    (timing_data_time_problem
      (ps.foldl
        (fun td p => timing_data_time_problem td (some (p.1, p.2.1)) p.2.2)
        td)
      none tEnd).output.length
    ≤ td.output.length
      + runsCount (td.previous_dimension :: ps.map (fun p => p.1)) := by
  induction ps generalizing td with
  | nil =>
    simp only [List.foldl_nil, List.map_nil, timing_data_time_problem,
      timingFlush, runsCount]
    by_cases hc : 0 < td.cumulative_evaluations
    · rw [if_pos hc]
      simp
    · rw [if_neg hc]
      omega
  | cons p rest ih =>
    rw [List.foldl_cons, List.map_cons]
    by_cases hd : td.previous_dimension ≠ p.1
    · have hstep : timing_data_time_problem td (some (p.1, p.2.1)) p.2.2
          = ⟨(timingFlush td p.2.2).number_of_dimensions,
             (timingFlush td p.2.2).current_idx,
             (timingFlush td p.2.2).output,
             p.1, p.2.1, p.2.2,
             (timingFlush td p.2.2).overall_start_time⟩ := by
        rw [timing_data_time_problem, if_pos hd]
      rw [hstep]
      have hih := ih ⟨(timingFlush td p.2.2).number_of_dimensions,
             (timingFlush td p.2.2).current_idx,
             (timingFlush td p.2.2).output,
             p.1, p.2.1, p.2.2,
             (timingFlush td p.2.2).overall_start_time⟩
      simp only at hih
      have hfl : (timingFlush td p.2.2).output.length
          ≤ td.output.length + 1 := by
        rw [timingFlush]
        by_cases hc : 0 < td.cumulative_evaluations
        · rw [if_pos hc]
          simp
        · rw [if_neg hc]
          omega
      have hrc : runsCount (td.previous_dimension :: p.1
            :: rest.map (fun p => p.1))
          = 1 + runsCount (p.1 :: rest.map (fun p => p.1)) := by
        rw [runsCount]
        rw [if_neg hd]
      omega
    · push_neg at hd
      have hstep : timing_data_time_problem td (some (p.1, p.2.1)) p.2.2
          = ⟨td.number_of_dimensions, td.current_idx, td.output,
             td.previous_dimension,
             td.cumulative_evaluations + p.2.1,
             td.start_time, td.overall_start_time⟩ := by
        rw [timing_data_time_problem,
          if_neg (by omega : ¬ td.previous_dimension ≠ p.1)]
      rw [hstep]
      have hih := ih ⟨td.number_of_dimensions, td.current_idx, td.output,
             td.previous_dimension,
             td.cumulative_evaluations + p.2.1,
             td.start_time, td.overall_start_time⟩
      simp only at hih
      have hrc : runsCount (td.previous_dimension :: p.1
            :: rest.map (fun p => p.1))
          = runsCount (td.previous_dimension :: rest.map (fun p => p.1)) := by
        rw [runsCount, if_pos hd, hd]
        omega
      omega

/-- C10: for every problem stream whose dimension sequence forms at most
`number_of_dimensions` maximal runs of equal dimension, every write of a
summary line into `output[current_idx]` — the final sentinel flush
included — occurs at an index strictly below `number_of_dimensions`:
each write goes to index `current_idx` = number of lines written so far,
and the total number of writes stays ≤ `number_of_dimensions`. -/
theorem timing_writes_in_bounds (N : ℕ) (t0 : ℚ) (ps : List (ℕ × ℕ × ℚ))
    (tEnd : ℚ) (hruns : runsCount (ps.map (fun p => p.1)) ≤ N) :
    (timing_run N t0 ps tEnd).1.current_idx
      = (timing_run N t0 ps tEnd).1.output.length
    ∧ (timing_run N t0 ps tEnd).1.output.length ≤ N := by
  constructor
  · rw [timing_run]
    exact timing_step_idx_inv _ _ _
      (timing_foldl_idx_inv ps (timing_data_init N t0) rfl)
  · show (timing_data_time_problem
        (ps.foldl
          (fun td p => timing_data_time_problem td (some (p.1, p.2.1)) p.2.2)
          (timing_data_init N t0))
        none tEnd).output.length ≤ N
    cases ps with
    | nil =>
      simp [timing_data_time_problem, timingFlush, timing_data_init]
    | cons p rest =>
      rw [List.foldl_cons]
      by_cases hd : (0 : ℕ) ≠ p.1
      · have hstep : timing_data_time_problem (timing_data_init N t0)
            (some (p.1, p.2.1)) p.2.2
            = ⟨N, 0, [], p.1, p.2.1, p.2.2, t0⟩ := by
          simp [timing_data_time_problem, timing_data_init, timingFlush, hd]
        rw [hstep]
        have hle := timing_emissions_le rest ⟨N, 0, [], p.1, p.2.1,
          p.2.2, t0⟩ tEnd
        simp only [List.length_nil] at hle
        rw [List.map_cons] at hruns
        have hruns2 : runsCount (p.1 :: rest.map (fun p => p.1)) ≤ N :=
          hruns
        omega
      · push_neg at hd
        have hstep : timing_data_time_problem (timing_data_init N t0)
            (some (p.1, p.2.1)) p.2.2
            = ⟨N, 0, [], 0, 0 + p.2.1, t0, t0⟩ := by
          simp [timing_data_time_problem, timing_data_init, timingFlush,
            ← hd]
        rw [hstep]
        have hle := timing_emissions_le rest ⟨N, 0, [], 0, 0 + p.2.1,
          t0, t0⟩ tEnd
        simp only [List.length_nil] at hle
        rw [List.map_cons, ← hd] at hruns
        omega

/-- Witness for C10 on a two-problem stream with two dimension runs and
capacity 2. -/
theorem timing_writes_in_bounds_witness :
    (timing_run 2 0 [(2, 1, 0), (3, 1, 1)] 2).1.current_idx
      = (timing_run 2 0 [(2, 1, 0), (3, 1, 1)] 2).1.output.length
    ∧ (timing_run 2 0 [(2, 1, 0), (3, 1, 1)] 2).1.output.length ≤ 2 :=
  timing_writes_in_bounds 2 0 [(2, 1, 0), (3, 1, 1)] 2 (by decide)

/-- Counterexample to C9 as stated: with known positive evaluation counts
but a wall clock that does not advance (all segments complete within the
same clock second), every summary line's seconds-per-evaluation value is
0, not strictly positive. -/
theorem timing_positive_cex :
    ¬ ((timing_run 3 0 [(2, 1, 0), (2, 1, 0), (3, 1, 0), (3, 1, 0),
          (3, 1, 0), (5, 1, 0)] 0).1.output.length = 3
      ∧ ∀ l ∈ (timing_run 3 0 [(2, 1, 0), (2, 1, 0), (3, 1, 0), (3, 1, 0),
          (3, 1, 0), (5, 1, 0)] 0).1.output,
          0 < l.secondsPerEval) := by
  rintro ⟨-, hpos⟩
  have hrun : (timing_run 3 0 [(2, 1, 0), (2, 1, 0), (3, 1, 0), (3, 1, 0),
      (3, 1, 0), (5, 1, 0)] 0).1
      = ⟨3, 3, [⟨2, 0⟩, ⟨3, 0⟩, ⟨5, 0⟩], 5, 1, 0, 0⟩ := by
    norm_num [timing_run, timing_data_time_problem, timingFlush,
      timing_data_init]
  have h1 := hpos ⟨2, 0⟩ (by rw [hrun]; simp)
  simp at h1

/-- C9 (amended): for the dimension stream `[2,2,3,3,3,5]` with positive
per-problem evaluation counts and nondecreasing timestamps, the
instrumentation followed by finalize emits exactly 3 summary lines — one
per maximal run of equal dimension — whose values are
`segment elapsed time / segment cumulative evaluations`; each value is
nonnegative, and strictly positive whenever its segment's elapsed wall
time is positive (the original claim's unconditional strict positivity
fails when a segment completes with no clock advance); finalize after an
empty problem stream emits zero lines and a total duration of
`tEnd - t0` (zero when no wall time has elapsed). -/
theorem timing_summary_lines (N : ℕ) (t0 t1 t2 t3 t4 t5 t6 tE : ℚ)
    (e1 e2 e3 e4 e5 e6 : ℕ)
    (he1 : 0 < e1) (he2 : 0 < e2) (he3 : 0 < e3) (he4 : 0 < e4)
    (he5 : 0 < e5) (he6 : 0 < e6)
    (h01 : t0 ≤ t1) (h12 : t1 ≤ t2) (h23 : t2 ≤ t3) (h34 : t3 ≤ t4)
    (h45 : t4 ≤ t5) (h56 : t5 ≤ t6) (h6E : t6 ≤ tE) :
    (timing_run N t0 [(2, e1, t1), (2, e2, t2), (3, e3, t3), (3, e4, t4),
        (3, e5, t5), (5, e6, t6)] tE).1.output
      = [⟨2, (t3 - t1) / ((e1 : ℚ) + e2)⟩,
         ⟨3, (t6 - t3) / ((e3 : ℚ) + e4 + e5)⟩,
         ⟨5, (tE - t6) / (e6 : ℚ)⟩]
    ∧ (∀ l ∈ (timing_run N t0 [(2, e1, t1), (2, e2, t2), (3, e3, t3),
          (3, e4, t4), (3, e5, t5), (5, e6, t6)] tE).1.output,
        0 ≤ l.secondsPerEval)
    ∧ (t1 < t3 → 0 < (t3 - t1) / ((e1 : ℚ) + e2))
    ∧ (t3 < t6 → 0 < (t6 - t3) / ((e3 : ℚ) + e4 + e5))
    ∧ (t6 < tE → 0 < (tE - t6) / (e6 : ℚ))
    ∧ (timing_run N t0 [(2, e1, t1), (2, e2, t2), (3, e3, t3), (3, e4, t4),
        (3, e5, t5), (5, e6, t6)] tE).2 = tE - t0
    ∧ (timing_run N t0 [] tE).1.output = []
    ∧ (timing_run N t0 [] tE).2 = tE - t0 := by
  have hp12 : 0 < e1 + e2 := by omega
  have hp345 : 0 < e3 + e4 + e5 := by omega
  have hc1 : (0 : ℚ) < (e1 : ℚ) + e2 := by
    have : (0 : ℚ) < ((e1 + e2 : ℕ) : ℚ) := by exact_mod_cast hp12
    push_cast at this
    linarith
  have hc2 : (0 : ℚ) < (e3 : ℚ) + e4 + e5 := by
    have : (0 : ℚ) < ((e3 + e4 + e5 : ℕ) : ℚ) := by exact_mod_cast hp345
    push_cast at this
    linarith
  have hc3 : (0 : ℚ) < (e6 : ℚ) := by exact_mod_cast he6
  have hrun : timing_run N t0 [(2, e1, t1), (2, e2, t2), (3, e3, t3),
      (3, e4, t4), (3, e5, t5), (5, e6, t6)] tE
      = (⟨N, 3, [⟨2, (t3 - t1) / ((e1 : ℚ) + e2)⟩,
          ⟨3, (t6 - t3) / ((e3 : ℚ) + e4 + e5)⟩,
          ⟨5, (tE - t6) / (e6 : ℚ)⟩], 5, e6, t6, t0⟩, tE - t0) := by
    simp [timing_run, timing_data_time_problem, timingFlush,
      timing_data_init, hp12, hp345, he6]
  have hempty : timing_run N t0 [] tE
      = (⟨N, 0, [], 0, 0, t0, t0⟩, tE - t0) := by
    simp [timing_run, timing_data_time_problem, timingFlush,
      timing_data_init]
  refine ⟨by rw [hrun], ?_, ?_, ?_, ?_, by rw [hrun], by rw [hempty],
    by rw [hempty]⟩
  · rw [hrun]
    intro l hl
    simp only [List.mem_cons, List.not_mem_nil, or_false] at hl
    rcases hl with rfl | rfl | rfl
    · exact div_nonneg (by linarith) (le_of_lt hc1)
    · exact div_nonneg (by linarith) (le_of_lt hc2)
    · exact div_nonneg (by linarith) (le_of_lt hc3)
  · intro h
    exact div_pos (by linarith) hc1
  · intro h
    exact div_pos (by linarith) hc2
  · intro h
    exact div_pos (by linarith) hc3

/-- Witness for C9's amended theorem with unit evaluation counts and a
clock advancing one second per problem. -/
theorem timing_summary_lines_witness :
    (timing_run 3 0 [(2, 1, 1), (2, 1, 2), (3, 1, 3), (3, 1, 4),
        (3, 1, 5), (5, 1, 6)] 7).1.output
      = [⟨2, ((3 : ℚ) - 1) / ((1 : ℚ) + 1)⟩,
         ⟨3, ((6 : ℚ) - 3) / ((1 : ℚ) + 1 + 1)⟩,
         ⟨5, ((7 : ℚ) - 6) / ((1 : ℕ) : ℚ)⟩]
    ∧ (∀ l ∈ (timing_run 3 0 [(2, 1, 1), (2, 1, 2), (3, 1, 3), (3, 1, 4),
          (3, 1, 5), (5, 1, 6)] 7).1.output,
        0 ≤ l.secondsPerEval)
    ∧ ((1 : ℚ) < 3 → 0 < ((3 : ℚ) - 1) / ((1 : ℚ) + 1))
    ∧ ((3 : ℚ) < 6 → 0 < ((6 : ℚ) - 3) / ((1 : ℚ) + 1 + 1))
    ∧ ((6 : ℚ) < 7 → 0 < ((7 : ℚ) - 6) / ((1 : ℕ) : ℚ))
    ∧ (timing_run 3 0 [(2, 1, 1), (2, 1, 2), (3, 1, 3), (3, 1, 4),
        (3, 1, 5), (5, 1, 6)] 7).2 = (7 : ℚ) - 0
    ∧ (timing_run 3 0 [] 7).1.output = []
    ∧ (timing_run 3 0 [] 7).2 = (7 : ℚ) - 0 :=
  timing_summary_lines 3 0 1 2 3 4 5 6 7 1 1 1 1 1 1
    (by norm_num) (by norm_num) (by norm_num) (by norm_num) (by norm_num)
    (by norm_num) (by norm_num) (by norm_num) (by norm_num) (by norm_num)
    (by norm_num) (by norm_num) (by norm_num)
